import Mathlib

/-!
# Verification of the Docugent retrieval pipeline

Shallow embedding of the retrieval core of the repository
(`src/lib/session.ts`, `MongoDocumentProcessor`, and its in-memory twin
`DocumentProcessor`): text preprocessing, sentence chunking, the synthetic
word-frequency embedding, cosine-similarity ranking, and the session-scoped
document store with its ingestion / retrieval / cleanup operations.

Modelling conventions:
* JavaScript strings are modelled as `List Char` (`JStr`); `String.prototype.length`
  counts UTF-16 code units, which agrees with the code-point count on the
  inputs considered here.
* JavaScript numbers are modelled as exact rationals `ℚ` (idealised arithmetic,
  no floating-point rounding).  The one place a square root appears
  (`cosineSimilarity`) is modelled symbolically, see `Score` below.
* The MongoDB collections are modelled as in-memory lists (`Store`), with
  `insertMany` appending in order, `find` filtering in insertion order,
  `findOne`/`deleteOne` acting on the first match, and `deleteMany` removing
  all matches.  Inserts can be made to fail via an explicit `StorageFault`
  injection (MongoDB's ordered `insertMany` persists a prefix before failing);
  deletes are modelled as always succeeding.
* All network interaction of the embedder with the provider is captured by a
  `ProviderOutcome` parameter of the environment.  `ensureModelLoaded`
  swallows every error and changes no state that the pipeline reads, so it is
  modelled as a no-op.
-/

/-- A JavaScript string, modelled as its list of characters. -/
abbrev JStr := List Char

/-- The character class `\s` of JavaScript regular expressions, which is also
the set of characters removed by `String.prototype.trim`. -/
def isJsWs (c : Char) : Bool :=
  c = ' ' || c = '\t' || c = '\n' || c = '\r' || c.val = 11 || c.val = 12 ||
  c.val = 0xa0 || c.val = 0x1680 || (0x2000 ≤ c.val && c.val ≤ 0x200a) ||
  c.val = 0x2028 || c.val = 0x2029 || c.val = 0x202f || c.val = 0x205f ||
  c.val = 0x3000 || c.val = 0xfeff

/-- `String.prototype.trim`: drop the characters matching `\s` from both ends. -/
def jsTrim (s : JStr) : JStr :=
  ((s.dropWhile isJsWs).reverse.dropWhile isJsWs).reverse

/-- Fuel-indexed worker for `splitRuns` (the fuel makes the recursion
structural, so that terms reduce inside the kernel; each step consumes at
least one character, so fuel = length of the string always suffices).

`str.split(re)` for a regular expression `re = /[c]+/` matching one-or-more
characters of the class `p`: the pieces between maximal runs of `p`-characters,
with empty boundary pieces kept (as JavaScript does: `" a".split(/\s+/)`
is `["", "a"]` and `"".split(/\s+/)` is `[""]`). -/
def splitRunsF (p : Char → Bool) : Nat → JStr → List JStr
  | 0, s => [s]
  | _, [] => [[]]
  | fuel + 1, c :: rest =>
    if p c then
      [] :: splitRunsF p fuel (rest.dropWhile p)
    else
      match splitRunsF p fuel rest with
      | [] => [[c]]
      | piece :: pieces => (c :: piece) :: pieces

def splitRuns (p : Char → Bool) (s : JStr) : List JStr :=
  splitRunsF p s.length s

/-- First stage of `preprocessText`: `text.replace(/\s+/g, " ")`, collapsing
every maximal whitespace run to a single space. -/
def collapseWsF : Nat → JStr → JStr
  | 0, s => s
  | _, [] => []
  | fuel + 1, c :: rest =>
    if isJsWs c then ' ' :: collapseWsF fuel (rest.dropWhile isJsWs)
    else c :: collapseWsF fuel rest

def collapseWs (s : JStr) : JStr :=
  collapseWsF s.length s

/-- Given the characters following a `'\n'`, the number of characters consumed
by a greedy match of the remainder `\s*\n` of the pattern `/\n\s*\n/`:
the whitespace prefix is scanned and the match ends at its last `'\n'`
(backtracking of the greedy `\s*`); `none` if no `'\n'` follows within the
whitespace prefix. -/
def matchNNTail (rest : JStr) : Option Nat :=
  let w := rest.takeWhile isJsWs
  match (w.reverse.findIdx? (fun c => c = '\n')) with
  | none => none
  | some j => some (w.length - j)

/-- Second stage of `preprocessText`: `text.replace(/\n\s*\n/g, "\n")`. -/
def replaceNNF : Nat → JStr → JStr
  | 0, s => s
  | _, [] => []
  | fuel + 1, c :: rest =>
    if c = '\n' then
      match matchNNTail rest with
      | some k => '\n' :: replaceNNF fuel (rest.drop k)
      | none => c :: replaceNNF fuel rest
    else c :: replaceNNF fuel rest

def replaceNN (s : JStr) : JStr :=
  replaceNNF s.length s

/-- `MongoDocumentProcessor.preprocessText`:
`text.replace(/\s+/g, " ").replace(/\n\s*\n/g, "\n").trim()`. -/
def preprocessText (text : JStr) : JStr :=
  jsTrim (replaceNN (collapseWs text))

/-- The sentence-terminator class `[.!?]` of `splitIntoChunks`. -/
def isTerm (c : Char) : Bool := c = '.' || c = '!' || c = '?'

/-- `text.split(/[.!?]+/).filter((s) => s.trim().length > 0)`:
the sentence candidates of `splitIntoChunks`. -/
def sentencesOf (text : JStr) : List JStr :=
  (splitRuns isTerm text).filter (fun s => decide (0 < (jsTrim s).length))

/-- The chunk size constant of both processors (`chunkSize = 1000`). -/
def chunkSize : Nat := 1000

/-- `currentChunk + (currentChunk ? ". " : "") + trimmedSentence`:
the candidate chunk tried in each iteration of `splitIntoChunks`. -/
def potOf (cur t : JStr) : JStr :=
  if cur = [] then t else cur ++ ". ".toList ++ t

/-- The loop of `splitIntoChunks`, with the emitted-chunks accumulator and the
running `currentChunk` made explicit. -/
def chunkLoop : List JStr → List JStr → JStr → List JStr
  | [], chunks, cur => if cur = [] then chunks else chunks ++ [cur]
  | s :: rest, chunks, cur =>
    let t := jsTrim s
    if t = [] then chunkLoop rest chunks cur
    else
      if (potOf cur t).length ≤ chunkSize then chunkLoop rest chunks (potOf cur t)
      else if cur = [] then chunkLoop rest chunks t
      else chunkLoop rest (chunks ++ [cur]) t

/-- `MongoDocumentProcessor.splitIntoChunks` (textually identical in
`DocumentProcessor`): greedy sentence-accumulating chunker. -/
def splitIntoChunks (text : JStr) : List JStr :=
  chunkLoop (sentencesOf text) [] []


/-- Join a group of sentences with the separator `". "` that `splitIntoChunks`
injects between accumulated sentences. -/
def joinDS : List JStr → JStr
  | [] => []
  | [g] => g
  | g :: gs => g ++ ". ".toList ++ joinDS gs

/-- The chunker loop instrumented to record, for each emitted chunk, the group
of trimmed sentences it was accumulated from (same branching as `chunkLoop`). -/
def chunkLoopG : List JStr → List (List JStr) → List JStr → List (List JStr)
  | [], groups, curG => if curG = [] then groups else groups ++ [curG]
  | s :: rest, groups, curG =>
    let t := jsTrim s
    if t = [] then chunkLoopG rest groups curG
    else
      if (joinDS (curG ++ [t])).length ≤ chunkSize then
        chunkLoopG rest groups (curG ++ [t])
      else if curG = [] then chunkLoopG rest groups [t]
      else chunkLoopG rest (groups ++ [curG]) [t]

theorem joinDS_cons_cons (a b : JStr) (l : List JStr) :
    joinDS (a :: b :: l) = a ++ ". ".toList ++ joinDS (b :: l) := rfl

theorem joinDS_append_singleton (g : List JStr) (t : JStr) (hg : g ≠ []) :
    joinDS (g ++ [t]) = joinDS g ++ ". ".toList ++ t := by
  induction g with
  | nil => exact absurd rfl hg
  | cons a gs ih =>
    cases gs with
    | nil => simp [joinDS]
    | cons b gs' =>
      have ih' := ih (by simp)
      simp only [List.cons_append] at ih' ⊢
      rw [joinDS_cons_cons, joinDS_cons_cons, ih']
      simp [List.append_assoc]

theorem joinDS_ne_nil (g : List JStr) (hg : g ≠ []) (hne : ∀ x ∈ g, x ≠ []) :
    joinDS g ≠ [] := by
  rcases g with _ | ⟨a, gs⟩
  · exact absurd rfl hg
  · rcases gs with _ | ⟨b, gs'⟩
    · exact hne a (by simp)
    · rw [joinDS_cons_cons]
      simp

theorem joinDS_eq_potOf (g : List JStr) (t : JStr) (hne : ∀ x ∈ g, x ≠ []) :
    joinDS (g ++ [t]) = potOf (joinDS g) t := by
  rcases g with _ | ⟨a, gs⟩
  · simp [joinDS, potOf]
  · rw [joinDS_append_singleton _ _ (by simp), potOf,
      if_neg (joinDS_ne_nil _ (by simp) hne)]

/-- Loop invariant for the chunk-size bound: every chunk emitted by
`chunkLoop` is within the size bound or is a single (oversized) element of the
trimmed-sentence pool `T`. -/
theorem chunkLoop_good (T : List JStr) (sentences : List JStr) :
    ∀ (chunks : List JStr) (cur : JStr),
    (∀ s ∈ sentences, jsTrim s ∈ T) →
    (∀ c ∈ chunks, c.length ≤ chunkSize ∨ (chunkSize < c.length ∧ c ∈ T)) →
    (cur = [] ∨ cur.length ≤ chunkSize ∨ (chunkSize < cur.length ∧ cur ∈ T)) →
    ∀ c ∈ chunkLoop sentences chunks cur,
      c.length ≤ chunkSize ∨ (chunkSize < c.length ∧ c ∈ T) := by
  induction sentences with
  | nil =>
    intro chunks cur _ hchunks hcur
    simp only [chunkLoop]
    split
    · exact hchunks
    · intro c hc
      rcases List.mem_append.1 hc with h | h
      · exact hchunks c h
      · rcases List.mem_singleton.1 h with rfl
        rcases hcur with h' | h'
        · simp_all
        · exact h'
  | cons s rest ih =>
    intro chunks cur hsent hchunks hcur
    have hsent' : ∀ x ∈ rest, jsTrim x ∈ T :=
      fun x hx => hsent x (List.mem_cons_of_mem s hx)
    have hs : jsTrim s ∈ T := hsent s (List.mem_cons_self s rest)
    have hts : (jsTrim s).length ≤ chunkSize ∨
        (chunkSize < (jsTrim s).length ∧ jsTrim s ∈ T) := by
      rcases le_or_lt (jsTrim s).length chunkSize with h | h
      · exact Or.inl h
      · exact Or.inr ⟨h, hs⟩
    simp only [chunkLoop]
    split_ifs with ht hfit hcure
    · exact ih chunks cur hsent' hchunks hcur
    · exact ih chunks _ hsent' hchunks (Or.inr (Or.inl hfit))
    · exact ih chunks _ hsent' hchunks (Or.inr hts)
    · refine ih (chunks ++ [cur]) _ hsent' ?_ (Or.inr hts)
      intro c hc
      rcases List.mem_append.1 hc with h | h
      · exact hchunks c h
      · rcases List.mem_singleton.1 h with rfl
        rcases hcur with h' | h'
        · exact absurd h' hcure
        · exact h'

/-- The trimmed, non-empty sentences the chunker loop actually consumes. -/
def trimmedSentences (sentences : List JStr) : List JStr :=
  (sentences.map jsTrim).filter (fun t => decide (t ≠ []))

theorem chunkLoop_eq_chunkLoopG (sentences : List JStr) :
    ∀ (groups : List (List JStr)) (curG : List JStr),
    (∀ x ∈ curG, x ≠ []) →
    chunkLoop sentences (groups.map joinDS) (joinDS curG) =
      (chunkLoopG sentences groups curG).map joinDS := by
  induction sentences with
  | nil =>
    intro groups curG hcur
    simp only [chunkLoop, chunkLoopG]
    by_cases h : curG = []
    · rw [if_pos h, if_pos (by simp [h, joinDS])]
    · rw [if_neg h, if_neg (joinDS_ne_nil curG h hcur)]
      simp
  | cons s rest ih =>
    intro groups curG hcur
    simp only [chunkLoop, chunkLoopG]
    by_cases ht : jsTrim s = []
    · rw [if_pos ht, if_pos ht]
      exact ih groups curG hcur
    · rw [if_neg ht, if_neg ht, ← joinDS_eq_potOf curG (jsTrim s) hcur]
      have hcur' : ∀ x ∈ curG ++ [jsTrim s], x ≠ [] := by
        intro x hx
        rcases List.mem_append.1 hx with h | h
        · exact hcur x h
        · rcases List.mem_singleton.1 h with rfl; exact ht
      by_cases hfit : (joinDS (curG ++ [jsTrim s])).length ≤ chunkSize
      · rw [if_pos hfit, if_pos hfit]
        exact ih groups (curG ++ [jsTrim s]) hcur'
      · rw [if_neg hfit, if_neg hfit]
        by_cases hc : curG = []
        · rw [if_pos (by simp [hc, joinDS]), if_pos hc]
          have := ih groups [jsTrim s] (by simpa using ht)
          simpa [joinDS] using this
        · rw [if_neg (joinDS_ne_nil curG hc hcur), if_neg hc]
          have := ih (groups ++ [curG]) [jsTrim s] (by simpa using ht)
          simpa [joinDS] using this

theorem chunkLoopG_join (sentences : List JStr) :
    ∀ (groups : List (List JStr)) (curG : List JStr),
    (chunkLoopG sentences groups curG).flatten =
      groups.flatten ++ curG ++ trimmedSentences sentences := by
  induction sentences with
  | nil =>
    intro groups curG
    simp only [chunkLoopG, trimmedSentences]
    by_cases h : curG = []
    · rw [if_pos h]; simp [h]
    · rw [if_neg h]; simp
  | cons s rest ih =>
    intro groups curG
    simp only [chunkLoopG]
    by_cases ht : jsTrim s = []
    · rw [if_pos ht, ih]
      simp [trimmedSentences, ht]
    · rw [if_neg ht]
      have htr : trimmedSentences (s :: rest) = jsTrim s :: trimmedSentences rest := by
        simp [trimmedSentences, ht]
      by_cases hfit : (joinDS (curG ++ [jsTrim s])).length ≤ chunkSize
      · rw [if_pos hfit, ih, htr]
        simp
      · rw [if_neg hfit]
        by_cases hc : curG = []
        · rw [if_pos hc, ih, htr]
          simp [hc]
        · rw [if_neg hc, ih, htr]
          simp

theorem chunkLoopG_ne_nil (sentences : List JStr) :
    ∀ (groups : List (List JStr)) (curG : List JStr),
    (∀ g ∈ groups, g ≠ []) →
    ∀ g ∈ chunkLoopG sentences groups curG, g ≠ [] := by
  induction sentences with
  | nil =>
    intro groups curG hg
    simp only [chunkLoopG]
    by_cases h : curG = []
    · rw [if_pos h]; exact hg
    · rw [if_neg h]
      intro g hgm
      rcases List.mem_append.1 hgm with hm | hm
      · exact hg g hm
      · rcases List.mem_singleton.1 hm with rfl; exact h
  | cons s rest ih =>
    intro groups curG hg
    simp only [chunkLoopG]
    by_cases ht : jsTrim s = []
    · rw [if_pos ht]; exact ih groups curG hg
    · rw [if_neg ht]
      by_cases hfit : (joinDS (curG ++ [jsTrim s])).length ≤ chunkSize
      · rw [if_pos hfit]
        exact ih groups (curG ++ [jsTrim s]) hg
      · rw [if_neg hfit]
        by_cases hc : curG = []
        · rw [if_pos hc]
          exact ih groups [jsTrim s] hg
        · rw [if_neg hc]
          refine ih (groups ++ [curG]) [jsTrim s] ?_
          intro x hx
          rcases List.mem_append.1 hx with hm | hm
          · exact hg x hm
          · rcases List.mem_singleton.1 hm with rfl; exact hc

theorem mem_sentencesOf_trim_ne (text : JStr) (s : JStr) (hs : s ∈ sentencesOf text) :
    jsTrim s ≠ [] := by
  have := List.of_mem_filter hs
  intro h
  simp [h] at this

theorem trimmedSentences_sentencesOf (text : JStr) :
    trimmedSentences (sentencesOf text) = (sentencesOf text).map jsTrim := by
  rw [trimmedSentences, List.filter_eq_self]
  intro t ht
  rcases List.mem_map.1 ht with ⟨s, hs, rfl⟩
  simpa using mem_sentencesOf_trim_ne text s hs

/-- C3: every chunk emitted by the chunker has length at most `chunkSize`
(1000), except a chunk that is a single trimmed sentence candidate whose own
length exceeds `chunkSize`, which is emitted whole and unsplit. -/
theorem chunk_size_bound (text : JStr) (c : JStr) (hc : c ∈ splitIntoChunks text) :
    c.length ≤ chunkSize ∨
      (chunkSize < c.length ∧ c ∈ (sentencesOf text).map jsTrim) := by
  refine chunkLoop_good ((sentencesOf text).map jsTrim) (sentencesOf text)
    [] [] ?_ (by simp) (Or.inl rfl) c hc
  intro s hs
  exact List.mem_map_of_mem jsTrim hs

/-- Witness for C3 at a concrete input. -/
theorem chunk_size_bound_witness :
    "Hi. There".toList.length ≤ chunkSize ∨
      (chunkSize < "Hi. There".toList.length ∧
        "Hi. There".toList ∈ (sentencesOf "Hi. There.".toList).map jsTrim) :=
  chunk_size_bound "Hi. There.".toList "Hi. There".toList (by decide)

/-- C4: the chunks are exactly the non-empty trimmed sentence candidates of
the input, in order, grouped and joined with the injected `". "` separators:
removing those separators recovers the sentence sequence. -/
theorem chunk_coverage (text : JStr) :
    ∃ groups : List (List JStr),
      (∀ g ∈ groups, g ≠ []) ∧
      groups.flatten = (sentencesOf text).map jsTrim ∧
      splitIntoChunks text = groups.map joinDS := by
  refine ⟨chunkLoopG (sentencesOf text) [] [], ?_, ?_, ?_⟩
  · exact chunkLoopG_ne_nil (sentencesOf text) [] [] (by simp)
  · rw [chunkLoopG_join]
    simpa using trimmedSentences_sentencesOf text
  · have := chunkLoop_eq_chunkLoopG (sentencesOf text) [] [] (by simp)
    simpa [joinDS, splitIntoChunks] using this

/-! ## The synthetic word-frequency embedding
(`createTextBasedEmbedding`, identical in both processors). -/

/-- `text.toLowerCase()` (ASCII case mapping). -/
def jsToLower (s : JStr) : JStr := s.map Char.toLower

/-- `text.toLowerCase().split(/\s+/)`: the word list of the synthetic
embedding (boundary empty strings included, as JavaScript's `split` keeps
them). -/
def jsWords (text : JStr) : List JStr :=
  splitRuns isJsWs (jsToLower text)

/-- The `wordFreq` object, as an insertion-ordered association list:
`wordFreq[word] = (wordFreq[word] || 0) + 1` keeps the property position on
update and appends new properties at the end. -/
def buildFreq (ws : List JStr) : List (JStr × Nat) :=
  ws.foldl
    (fun acc w =>
      if acc.any (fun p => p.1 == w) then
        acc.map (fun p => if p.1 == w then (p.1, p.2 + 1) else p)
      else acc ++ [(w, 1)])
    []

/-- Value of the decimal digit string (used only on all-digit strings). -/
def toNatDigits (s : JStr) : Nat :=
  s.foldl (fun n c => n * 10 + (c.toNat - 48)) 0

/-- Canonical array-index property names, which JavaScript's
`[[OwnPropertyKeys]]` (reached via `Object.keys`) enumerates first, in
ascending numeric order: `"0"`, or digits without a leading zero, with value
at most `2^32 - 2`. -/
def isArrayIndexStr : JStr → Bool
  | [] => false
  | ['0'] => true
  | c :: rest =>
    c.isDigit && c ≠ '0' && rest.all Char.isDigit &&
      toNatDigits (c :: rest) ≤ 4294967294

/-- Insert into a list sorted ascending by `toNatDigits` (structural stand-in
for the engine's ascending enumeration of array-index keys). -/
def insertByNum (w : JStr) : List JStr → List JStr
  | [] => [w]
  | x :: xs =>
    if toNatDigits w ≤ toNatDigits x then w :: x :: xs
    else x :: insertByNum w xs

/-- Sort ascending by numeric value. -/
def sortByNum (l : List JStr) : List JStr :=
  l.foldr insertByNum []

/-- `Object.keys(wordFreq)`: array-index keys first in ascending numeric
order, then the remaining string keys in property-creation (first-seen)
order. -/
def objectKeys (assoc : List (JStr × Nat)) : List JStr :=
  let keys := assoc.map Prod.fst
  sortByNum (keys.filter isArrayIndexStr) ++
    keys.filter (fun k => !isArrayIndexStr k)

/-- `wordFreq[w]` (`0` when absent). -/
def freqOf (assoc : List (JStr × Nat)) (w : JStr) : Nat :=
  match assoc.find? (fun p => p.1 == w) with
  | some p => p.2
  | none => 0

/-- The fixed embedding dimension (`new Array(384).fill(0)`). -/
def embedDim : Nat := 384

/-- `MongoDocumentProcessor.createTextBasedEmbedding` (identical in
`DocumentProcessor`): word-frequency vector over the first 384 keys of the
`wordFreq` object, in `Object.keys` enumeration order. -/
def createTextBasedEmbedding (text : JStr) : List ℚ :=
  let words := jsWords text
  let wordFreq := buildFreq words
  let allWords := objectKeys wordFreq
  allWords.enum.foldl
    (fun emb p =>
      if p.1 < embedDim then
        emb.set p.1 ((freqOf wordFreq p.2 : ℚ) / (words.length : ℚ))
      else emb)
    (List.replicate embedDim (0 : ℚ))

/-- The synthetic embedding as claim C5 words it: the `i`-th entry is the
relative frequency of the `i`-th distinct word in FIRST-SEEN order (this is
the claim's reading of `Object.keys`, compared against the code's actual
enumeration order). -/
def claimTextBasedEmbedding (text : JStr) : List ℚ :=
  let words := jsWords text
  let wordFreq := buildFreq words
  let distinct := wordFreq.map Prod.fst
  (List.range embedDim).map (fun i =>
    if h : i < distinct.length then
      (freqOf wordFreq (distinct.get ⟨i, h⟩) : ℚ) / (words.length : ℚ)
    else 0)

theorem foldl_set_embed_length (f : JStr → ℚ) :
    ∀ (l : List JStr) (k : Nat) (emb : List ℚ),
    ((l.enumFrom k).foldl
      (fun emb p => if p.1 < embedDim then emb.set p.1 (f p.2) else emb)
      emb).length = emb.length := by
  intro l
  induction l with
  | nil => intro k emb; simp
  | cons x xs ih =>
    intro k emb
    simp only [List.enumFrom_cons, List.foldl_cons, ih]
    split <;> simp

theorem foldl_set_embed (f : JStr → ℚ) :
    ∀ (l : List JStr) (k : Nat) (emb : List ℚ), emb.length = embedDim →
    ∀ j : Nat,
    ((l.enumFrom k).foldl
      (fun emb p => if p.1 < embedDim then emb.set p.1 (f p.2) else emb)
      emb)[j]? =
      if k ≤ j ∧ j < k + l.length ∧ j < embedDim then (l[j-k]?).map f
      else emb[j]? := by
  intro l
  induction l with
  | nil =>
    intro k emb _ j
    rw [if_neg (by simp only [List.length_nil]; omega)]
    simp
  | cons x xs ih =>
    intro k emb hlen j
    simp only [List.enumFrom_cons, List.foldl_cons]
    have hlen' : (if k < embedDim then emb.set k (f x) else emb).length = embedDim := by
      split <;> simp [hlen]
    rw [ih (k + 1) _ hlen' j]
    by_cases hj1 : k + 1 ≤ j ∧ j < k + 1 + xs.length ∧ j < embedDim
    · rw [if_pos hj1, if_pos (by simp only [List.length_cons]; omega)]
      have : j - k = (j - (k + 1)) + 1 := by omega
      rw [this, List.getElem?_cons_succ]
    · rw [if_neg hj1]
      by_cases hjk : j = k
      · subst hjk
        by_cases hd : j < embedDim
        · rw [if_pos hd, if_pos (by simp only [List.length_cons]; omega)]
          rw [List.getElem?_set_self (by omega), Nat.sub_self,
            List.getElem?_cons_zero, Option.map_some']
        · rw [if_neg hd, if_neg (by simp only [List.length_cons]; omega)]
      · have hne : ¬(k ≤ j ∧ j < k + (x :: xs).length ∧ j < embedDim) := by
          simp only [List.length_cons]; omega
        rw [if_neg hne]
        split
        · rw [List.getElem?_set_ne (by omega)]
        · rfl

unseal Rat.mul Rat.inv in
/-- C5, counterexample: for the text `"b b 1"` the code's vector differs from
the claim's first-seen-order vector, because `Object.keys` enumerates the
array-index-like key `"1"` before the earlier-seen key `"b"`: the code
produces entries `1/3, 2/3, 0, ...` whereas the claim prescribes
`2/3, 1/3, 0, ...`. -/
theorem synthetic_embedding_counterexample :
    createTextBasedEmbedding "b b 1".toList ≠
      claimTextBasedEmbedding "b b 1".toList := by
  decide

/-- C5, amended: the synthetic embedding is a pure, deterministic function of
the text; it lower-cases, splits on whitespace, and its entry at index
`i < 384` is the relative frequency `count/totalWords` of the `i`-th distinct
word in JavaScript object-key enumeration order (array-index-like words first
in ascending numeric order, then the remaining distinct words in first-seen
order), and `0` past the distinct words. -/
theorem synthetic_embedding_spec (text : JStr) :
    (createTextBasedEmbedding text).length = embedDim ∧
    ∀ i : Fin embedDim,
      (createTextBasedEmbedding text)[i.1]? =
        some
          (if h : i.1 < (objectKeys (buildFreq (jsWords text))).length then
            (freqOf (buildFreq (jsWords text))
                ((objectKeys (buildFreq (jsWords text))).get ⟨i.1, h⟩) : ℚ) /
              ((jsWords text).length : ℚ)
           else 0) := by
  constructor
  · exact (foldl_set_embed_length
      (fun w => (freqOf (buildFreq (jsWords text)) w : ℚ) / ((jsWords text).length : ℚ))
      (objectKeys (buildFreq (jsWords text))) 0
      (List.replicate embedDim 0)).trans (List.length_replicate embedDim 0)
  · intro i
    refine Eq.trans (foldl_set_embed
      (fun w => (freqOf (buildFreq (jsWords text)) w : ℚ) / ((jsWords text).length : ℚ))
      (objectKeys (buildFreq (jsWords text))) 0 (List.replicate embedDim 0)
      (List.length_replicate embedDim 0) i.1) ?_
    by_cases h : i.1 < (objectKeys (buildFreq (jsWords text))).length
    · rw [if_pos ⟨Nat.zero_le _, by omega, i.2⟩, dif_pos h, Nat.sub_zero,
        List.getElem?_eq_getElem h, Option.map_some']
      rfl
    · rw [if_neg (by omega), dif_neg h, List.getElem?_replicate, if_pos i.2]

/-! ## Cosine similarity and similarity scores
(`cosineSimilarity` and the scoring map of `retrieveContext`). -/

/-- The loop of `cosineSimilarity` accumulating `Σ a[i]*b[i]` (run over two
equal-length vectors; also used for `normA`/`normB` as `dotAcc a a`). -/
def dotAcc (a b : List ℚ) : ℚ :=
  (a.zip b).foldl (fun acc p => acc + p.1 * p.2) 0

theorem foldl_add_sq_le (a : List ℚ) :
    ∀ acc : ℚ, acc ≤ (a.zip a).foldl (fun acc p => acc + p.1 * p.2) acc := by
  induction a with
  | nil => intro acc; simp
  | cons x xs ih =>
    intro acc
    simp only [List.zip_cons_cons, List.foldl_cons]
    exact le_trans (le_add_of_nonneg_right (mul_self_nonneg x)) (ih _)

theorem dotAcc_self_nonneg (a : List ℚ) : 0 ≤ dotAcc a a :=
  foldl_add_sq_le a 0

/-- A JavaScript number arising as a similarity score: either `NaN` (the
division `0/0` produced by a zero vector: `normA * normB = 0` forces
`dotProduct = 0` since `normA = Σ a[i]²`), or the value
`dot / (√normA * √normB) = dot / √(normA * normB)`, represented symbolically
by the pair `(dot, p)` with `p = normA * normB > 0`. -/
inductive Score where
  | nan : Score
  | srt : (dot : ℚ) → (p : ℚ) → 0 < p → Score

instance : DecidableEq Score := fun x y =>
  match x, y with
  | .nan, .nan => isTrue rfl
  | .nan, .srt _ _ _ => isFalse (fun h => Score.noConfusion h)
  | .srt _ _ _, .nan => isFalse (fun h => Score.noConfusion h)
  | .srt d p h, .srt d' p' h' =>
    if hd : d = d' then
      if hp : p = p' then isTrue (by subst hd; subst hp; rfl)
      else isFalse (fun h => by cases h; exact hp rfl)
    else isFalse (fun h => by cases h; exact hd rfl)

/-- The real value a score denotes (only meaningful for non-`NaN` scores;
`NaN` is mapped to an arbitrary value). -/
noncomputable def scoreVal : Score → ℝ
  | .nan => 0
  | .srt d p _ => (d : ℝ) / Real.sqrt (p : ℝ)

/-- `MongoDocumentProcessor.cosineSimilarity`: throws on unequal lengths,
otherwise `dotProduct / (Math.sqrt(normA) * Math.sqrt(normB))`. -/
def cosineSimilarity (a b : List ℚ) : Except String Score :=
  if a.length ≠ b.length then .error "Vectors must have the same length"
  else if hz : dotAcc a a * dotAcc b b = 0 then .ok .nan
  else
    .ok (.srt (dotAcc a b) (dotAcc a a * dotAcc b b)
      (lt_of_le_of_ne (mul_nonneg (dotAcc_self_nonneg a) (dotAcc_self_nonneg b))
        (Ne.symm hz)))

/-! ## The data model of the document store. -/

/-- The `metadata` field of a `DocumentChunk` (`src/lib/session.ts`). -/
structure ChunkMeta where
  documentId : JStr
  chunkIndex : Nat
  source : JStr
  sessionId : JStr
deriving DecidableEq

/-- A stored document chunk (`src/lib/session.ts`). -/
structure DocumentChunk where
  id : JStr
  text : JStr
  embedding : List ℚ
  metadata : ChunkMeta
deriving DecidableEq

/-- A stored metadata record (`src/lib/session.ts`); `processedAt` is an
abstract timestamp. -/
structure DocumentMetadata where
  documentId : JStr
  sessionId : JStr
  source : JStr
  processedAt : Nat
  chunkCount : Nat
deriving DecidableEq

/-- The similarity-scoring map of `retrieveContext`: per candidate chunk,
`cosineSimilarity(queryEmbedding, chunk.embedding)` under `try`; the `catch`
substitutes similarity `0` (represented as `0 / √1`). -/
def scoreChunks (queryEmbedding : List ℚ) (chunks : List DocumentChunk) :
    List (DocumentChunk × Score) :=
  chunks.map (fun chunk =>
    match cosineSimilarity queryEmbedding chunk.embedding with
    | .ok similarity => (chunk, similarity)
    | .error _ => (chunk, Score.srt 0 1 one_pos))

/-- Comparison of two symbolic score values `d1/√p1 ≤ d2/√p2` (`p1, p2 > 0`),
decided over `ℚ` by sign analysis and cross-multiplied squares. -/
def cosLe (d1 p1 d2 p2 : ℚ) : Bool :=
  if 0 < d1 then
    if d2 ≤ 0 then false
    else decide (d1 ^ 2 * p2 ≤ d2 ^ 2 * p1)
  else
    if 0 ≤ d2 then true
    else decide (d2 ^ 2 * p1 ≤ d1 ^ 2 * p2)

theorem cosLe_iff (d1 p1 d2 p2 : ℚ) (hp1 : 0 < p1) (hp2 : 0 < p2) :
    cosLe d1 p1 d2 p2 = true ↔
      (d1 : ℝ) / Real.sqrt (p1 : ℝ) ≤ (d2 : ℝ) / Real.sqrt (p2 : ℝ) := by
  have hp1' : (0:ℝ) < (p1 : ℝ) := by exact_mod_cast hp1
  have hp2' : (0:ℝ) < (p2 : ℝ) := by exact_mod_cast hp2
  have hs1 : (0:ℝ) < Real.sqrt (p1 : ℝ) := Real.sqrt_pos.mpr hp1'
  have hs2 : (0:ℝ) < Real.sqrt (p2 : ℝ) := Real.sqrt_pos.mpr hp2'
  have hq1 : Real.sqrt (p1 : ℝ) ^ 2 = (p1 : ℝ) := Real.sq_sqrt hp1'.le
  have hq2 : Real.sqrt (p2 : ℝ) ^ 2 = (p2 : ℝ) := Real.sq_sqrt hp2'.le
  rw [div_le_div_iff₀ hs1 hs2, cosLe]
  split_ifs with h1 h2 h3
  · have hd1 : (0:ℝ) < (d1 : ℝ) := by exact_mod_cast h1
    have hd2 : (d2:ℝ) ≤ 0 := by exact_mod_cast h2
    simp only [Bool.false_eq_true, false_iff, not_le]
    nlinarith
  · have hd1 : (0:ℝ) < (d1 : ℝ) := by exact_mod_cast h1
    have hd2 : (0:ℝ) < (d2 : ℝ) := by exact_mod_cast (not_le.mp h2)
    rw [decide_eq_true_iff]
    constructor
    · intro h
      have h' : (d1:ℝ) ^ 2 * (p2:ℝ) ≤ (d2:ℝ) ^ 2 * (p1:ℝ) := by exact_mod_cast h
      nlinarith [mul_pos hd1 hs2, mul_pos hd2 hs1]
    · intro h
      have h' : (d1:ℝ) ^ 2 * (p2:ℝ) ≤ (d2:ℝ) ^ 2 * (p1:ℝ) := by
        nlinarith [mul_pos hd1 hs2, mul_pos hd2 hs1]
      exact_mod_cast h'
  · have hd1 : (d1:ℝ) ≤ 0 := by exact_mod_cast not_lt.mp h1
    have hd2 : (0:ℝ) ≤ (d2 : ℝ) := by exact_mod_cast h3
    simp only [true_iff]
    nlinarith
  · have hd1 : (d1:ℝ) ≤ 0 := by exact_mod_cast not_lt.mp h1
    have hd2 : (d2:ℝ) < 0 := by exact_mod_cast (not_le.mp h3)
    rw [decide_eq_true_iff]
    constructor
    · intro h
      have h' : (d2:ℝ) ^ 2 * (p1:ℝ) ≤ (d1:ℝ) ^ 2 * (p2:ℝ) := by exact_mod_cast h
      nlinarith [mul_pos (neg_pos.mpr hd2) hs1, mul_nonneg (neg_nonneg.mpr hd1) hs2.le]
    · intro h
      have h' : (d2:ℝ) ^ 2 * (p1:ℝ) ≤ (d1:ℝ) ^ 2 * (p2:ℝ) := by
        nlinarith [mul_pos (neg_pos.mpr hd2) hs1, mul_nonneg (neg_nonneg.mpr hd1) hs2.le]
      exact_mod_cast h'

/-- The sort comparator of `retrieveContext`,
`(a, b) => b.similarity - a.similarity`, read as the boolean relation "`x`
may stay before `y`" (comparator result `≤ 0`, i.e.
`y.similarity ≤ x.similarity`).  Per the ECMAScript `SortCompare` operation a
`NaN` comparator result is treated as `+0`, so a `NaN` score compares
"equal" to everything (making the comparator inconsistent; the resulting
order is implementation-defined, so theorems about the sort assume `NaN`-free
scores). -/
def simCmpLe (x y : DocumentChunk × Score) : Bool :=
  match x.2, y.2 with
  | .nan, _ => true
  | .srt _ _ _, .nan => true
  | .srt dx px _, .srt dy py _ => cosLe dy py dx px

/-- A total, transitive extension of `simCmpLe` that agrees with it whenever
neither score is `NaN` (used only to reason about the sort). -/
def rankLe (x y : DocumentChunk × Score) : Bool :=
  match x.2, y.2 with
  | .nan, _ => true
  | .srt _ _ _, .nan => false
  | .srt dx px _, .srt dy py _ => cosLe dy py dx px

theorem rankLe_eq_simCmpLe (x y : DocumentChunk × Score)
    (hx : x.2 ≠ Score.nan) (hy : y.2 ≠ Score.nan) :
    rankLe x y = simCmpLe x y := by
  rcases x with ⟨cx, _ | ⟨dx, px, hpx⟩⟩
  · exact absurd rfl hx
  · rcases y with ⟨cy, _ | ⟨dy, py, hpy⟩⟩
    · exact absurd rfl hy
    · rfl

theorem rankLe_iff (cx cy : DocumentChunk) (dx px : ℚ) (hpx : 0 < px)
    (dy py : ℚ) (hpy : 0 < py) :
    rankLe (cx, Score.srt dx px hpx) (cy, Score.srt dy py hpy) = true ↔
      scoreVal (Score.srt dy py hpy) ≤ scoreVal (Score.srt dx px hpx) := by
  show cosLe dy py dx px = true ↔ _
  rw [cosLe_iff dy py dx px hpy hpx]
  exact Iff.rfl

theorem rankLe_total (x y : DocumentChunk × Score) :
    rankLe x y || rankLe y x := by
  rcases x with ⟨cx, _ | ⟨dx, px, hpx⟩⟩
  · simp [rankLe]
  · rcases y with ⟨cy, _ | ⟨dy, py, hpy⟩⟩
    · simp [rankLe]
    · rw [Bool.or_eq_true, rankLe_iff cx cy dx px hpx dy py hpy,
        rankLe_iff cy cx dy py hpy dx px hpx]
      exact (le_total (scoreVal (Score.srt dy py hpy))
        (scoreVal (Score.srt dx px hpx))).imp id id

theorem rankLe_trans (x y z : DocumentChunk × Score)
    (h1 : rankLe x y) (h2 : rankLe y z) : rankLe x z := by
  rcases x with ⟨cx, _ | ⟨dx, px, hpx⟩⟩
  · simp [rankLe]
  · rcases y with ⟨cy, _ | ⟨dy, py, hpy⟩⟩
    · exact absurd h1 (by simp [rankLe])
    · rcases z with ⟨cz, _ | ⟨dz, pz, hpz⟩⟩
      · exact absurd h2 (by simp [rankLe])
      · rw [rankLe_iff cx cy dx px hpx dy py hpy] at h1
        rw [rankLe_iff cy cz dy py hpy dz pz hpz] at h2
        rw [rankLe_iff cx cz dx px hpx dz pz hpz]
        exact le_trans h2 h1

/-- `merge` only ever compares an element of the left list with an element of
the right list, so comparators agreeing there produce the same merge. -/
theorem merge_congr (le₁ le₂ : α → α → Bool) :
    ∀ (xs ys : List α), (∀ a ∈ xs, ∀ b ∈ ys, le₁ a b = le₂ a b) →
      List.merge xs ys le₁ = List.merge xs ys le₂
  | [], ys => by simp
  | x :: xs, [] => by simp
  | x :: xs, y :: ys => fun h => by
    rw [List.cons_merge_cons, List.cons_merge_cons,
      h x (List.mem_cons_self x xs) y (List.mem_cons_self y ys)]
    split
    · rw [merge_congr le₁ le₂ xs (y :: ys)
        (fun a ha b hb => h a (List.mem_cons_of_mem x ha) b hb)]
    · rw [merge_congr le₁ le₂ (x :: xs) ys
        (fun a ha b hb => h a ha b (List.mem_cons_of_mem y hb))]
termination_by xs ys => xs.length + ys.length

/-- `mergeSort` only ever compares elements of the input list, so comparators
agreeing on the input produce the same sort. -/
theorem mergeSort_congr (le₁ le₂ : α → α → Bool) :
    ∀ (l : List α), (∀ a ∈ l, ∀ b ∈ l, le₁ a b = le₂ a b) →
      l.mergeSort le₁ = l.mergeSort le₂
  | [] => by simp
  | [a] => by simp
  | a :: b :: xs => fun h => by
    have hl1 : (List.splitInTwo ⟨a :: b :: xs, rfl⟩).1.1.length < xs.length + 1 + 1 := by
      simp [List.splitInTwo_fst]; omega
    have hl2 : (List.splitInTwo ⟨a :: b :: xs, rfl⟩).2.1.length < xs.length + 1 + 1 := by
      simp [List.splitInTwo_snd]; omega
    have hm1 : ∀ c ∈ (List.splitInTwo ⟨a :: b :: xs, rfl⟩).1.1, c ∈ a :: b :: xs := by
      intro c hc
      rw [List.splitInTwo_fst] at hc
      exact List.mem_of_mem_take hc
    have hm2 : ∀ c ∈ (List.splitInTwo ⟨a :: b :: xs, rfl⟩).2.1, c ∈ a :: b :: xs := by
      intro c hc
      rw [List.splitInTwo_snd] at hc
      exact List.mem_of_mem_drop hc
    rw [List.mergeSort, List.mergeSort]
    rw [mergeSort_congr le₁ le₂ (List.splitInTwo ⟨a :: b :: xs, rfl⟩).1.1
        (fun x hx y hy => h x (hm1 x hx) y (hm1 y hy)),
      mergeSort_congr le₁ le₂ (List.splitInTwo ⟨a :: b :: xs, rfl⟩).2.1
        (fun x hx y hy => h x (hm2 x hx) y (hm2 y hy)),
      merge_congr le₁ le₂ _ _
        (fun x hx y hy => h x (hm1 x (List.mem_mergeSort.mp hx))
          y (hm2 y (List.mem_mergeSort.mp hy)))]
termination_by l => l.length

/-- `similarities.sort((a, b) => b.similarity - a.similarity)`: ECMAScript
requires `Array.prototype.sort` to be stable, and for a consistent comparator
every stable sort yields the same list, so the sort is modelled by the stable
`mergeSort` under the comparator relation `simCmpLe`. -/
def jsSortBySimilarity (scored : List (DocumentChunk × Score)) :
    List (DocumentChunk × Score) :=
  scored.mergeSort simCmpLe

/-- `.slice(0, topK).map(item => item.chunk)` applied to the sorted list. -/
def rankCandidates (scored : List (DocumentChunk × Score)) (topK : Nat) :
    List DocumentChunk :=
  ((jsSortBySimilarity scored).take topK).map Prod.fst

/-- Numeric equality of two scores (`NaN` equal to nothing, `NaN` included,
matching IEEE/JS `===` on the represented numbers is not wanted here: the
relation below is the equivalence "equal similarity value" used to express
tie-breaking; `scoreEqB_iff` ties it to the real values). -/
def scoreEqB : Score → Score → Bool
  | .nan, .nan => true
  | .nan, .srt _ _ _ => false
  | .srt _ _ _, .nan => false
  | .srt d1 p1 _, .srt d2 p2 _ => cosLe d1 p1 d2 p2 && cosLe d2 p2 d1 p1

theorem scoreEqB_iff (d1 p1 : ℚ) (h1 : 0 < p1) (d2 p2 : ℚ) (h2 : 0 < p2) :
    scoreEqB (Score.srt d1 p1 h1) (Score.srt d2 p2 h2) = true ↔
      scoreVal (Score.srt d1 p1 h1) = scoreVal (Score.srt d2 p2 h2) := by
  show (cosLe d1 p1 d2 p2 && cosLe d2 p2 d1 p1) = true ↔ _
  rw [Bool.and_eq_true, cosLe_iff d1 p1 d2 p2 h1 h2, cosLe_iff d2 p2 d1 p1 h2 h1]
  exact ⟨fun ⟨a, b⟩ => le_antisymm a b, fun h => ⟨le_of_eq h, ge_of_eq h⟩⟩

theorem jsSortBySimilarity_eq_rankLe (scored : List (DocumentChunk × Score))
    (hnan : ∀ x ∈ scored, x.2 ≠ Score.nan) :
    jsSortBySimilarity scored = scored.mergeSort rankLe :=
  mergeSort_congr simCmpLe rankLe scored
    (fun a ha b hb => ((rankLe_eq_simCmpLe a b (hnan a ha) (hnan b hb)).symm))

theorem jsSortBySimilarity_sorted (scored : List (DocumentChunk × Score))
    (hnan : ∀ x ∈ scored, x.2 ≠ Score.nan) :
    (jsSortBySimilarity scored).Pairwise
      (fun x y => scoreVal y.2 ≤ scoreVal x.2) := by
  rw [jsSortBySimilarity_eq_rankLe scored hnan]
  have hs := @List.sorted_mergeSort _ rankLe
    (fun a b c => rankLe_trans a b c) (fun a b => rankLe_total a b) scored
  refine hs.imp_of_mem ?_
  intro a b ha hb hab
  have ha' := hnan a (List.mem_mergeSort.mp ha)
  have hb' := hnan b (List.mem_mergeSort.mp hb)
  rcases a with ⟨ca, _ | ⟨da, pa, hpa⟩⟩
  · exact absurd rfl ha'
  · rcases b with ⟨cb, _ | ⟨db, pb, hpb⟩⟩
    · exact absurd rfl hb'
    · exact (rankLe_iff ca cb da pa hpa db pb hpb).mp hab

theorem jsSortBySimilarity_perm (scored : List (DocumentChunk × Score)) :
    (jsSortBySimilarity scored).Perm scored :=
  List.mergeSort_perm scored simCmpLe

/-- Stability: the candidates of any fixed similarity value appear in the
sorted list exactly in their original order. -/
theorem jsSortBySimilarity_stable (scored : List (DocumentChunk × Score))
    (hnan : ∀ x ∈ scored, x.2 ≠ Score.nan) (s : Score) :
    (jsSortBySimilarity scored).filter (fun x => scoreEqB x.2 s) =
      scored.filter (fun x => scoreEqB x.2 s) := by
  classical
  set p : DocumentChunk × Score → Bool := fun x => scoreEqB x.2 s with hp
  have hsub : List.Sublist (scored.filter p) scored := List.filter_sublist scored
  have hpair : (scored.filter p).Pairwise (fun a b => rankLe a b = true) := by
    refine List.pairwise_of_forall_mem_list ?_
    intro a hain b hbin
    have ha := (List.mem_filter.mp hain).1
    have hb := (List.mem_filter.mp hbin).1
    have hpa := (List.mem_filter.mp hain).2
    have hpb := (List.mem_filter.mp hbin).2
    have ha' := hnan a ha
    have hb' := hnan b hb
    rcases a with ⟨ca, _ | ⟨da, pa, hpa'⟩⟩
    · exact absurd rfl ha'
    · rcases b with ⟨cb, _ | ⟨db, pb, hpb'⟩⟩
      · exact absurd rfl hb'
      · rcases s with _ | ⟨ds, ps, hps⟩
        · exact absurd hpa (by simp [hp, scoreEqB])
        · have e1 := (scoreEqB_iff da pa hpa' ds ps hps).mp hpa
          have e2 := (scoreEqB_iff db pb hpb' ds ps hps).mp hpb
          exact (rankLe_iff ca cb da pa hpa' db pb hpb').mpr
            (le_of_eq (e2.trans e1.symm))
  have hsl : List.Sublist (scored.filter p) (scored.mergeSort rankLe) :=
    List.sublist_mergeSort (fun a b c => rankLe_trans a b c)
      (fun a b => rankLe_total a b) hpair hsub
  rw [← jsSortBySimilarity_eq_rankLe scored hnan] at hsl
  have hperm : List.Perm ((jsSortBySimilarity scored).filter p) (scored.filter p) :=
    (jsSortBySimilarity_perm scored).filter p
  have hsl2 : List.Sublist (scored.filter p) ((jsSortBySimilarity scored).filter p) := by
    have := hsl.filter p
    rwa [List.filter_filter, show (fun a => p a && p a) = p by
      funext a; rw [Bool.and_self]] at this
  exact (hsl2.eq_of_length (hperm.length_eq.symm)).symm

/-! ## The session-scoped document store. -/

/-- The two MongoDB collections (`documents`, `metadata`), modelled as
in-memory lists in insertion order. -/
structure Store where
  documents : List DocumentChunk
  metadata : List DocumentMetadata
deriving DecidableEq

/-- The store before any ingestion. -/
def Store.empty : Store := ⟨[], []⟩

/-- `documents.find({"metadata.documentId": documentId, "metadata.sessionId":
sessionId}).toArray()`: the chunk lookup of `retrieveContext`. -/
def findChunks (st : Store) (documentId sessionId : JStr) : List DocumentChunk :=
  st.documents.filter
    (fun c => c.metadata.documentId == documentId &&
      c.metadata.sessionId == sessionId)

/-- All metadata records matching the pair (used to state the metadata
invariant; MongoDB enforces no uniqueness here). -/
def metaFor (st : Store) (documentId sessionId : JStr) : List DocumentMetadata :=
  st.metadata.filter
    (fun m => m.documentId == documentId && m.sessionId == sessionId)

/-- `metadata.findOne({documentId, sessionId})`: the first matching record. -/
def findMetadataOne (st : Store) (documentId sessionId : JStr) :
    Option DocumentMetadata :=
  st.metadata.find?
    (fun m => m.documentId == documentId && m.sessionId == sessionId)

/-- `deleteOne`: remove the first record matching the filter. -/
def deleteOneBy (p : α → Bool) : List α → List α
  | [] => []
  | x :: xs => if p x then xs else x :: deleteOneBy p xs

/-- `documents.insertMany(...)`: ordered batch append. -/
def insertChunks (st : Store) (chunks : List DocumentChunk) : Store :=
  { st with documents := st.documents ++ chunks }

/-- `metadata.insertOne(...)`. -/
def insertMetadata (st : Store) (m : DocumentMetadata) : Store :=
  { st with metadata := st.metadata ++ [m] }

/-- `MongoDocumentProcessor.cleanupDocument`: `deleteMany` of the pair's
chunks, then `deleteOne` (first match only) of the pair's metadata.  The
deletes themselves are modelled as always succeeding. -/
def cleanupDocument (st : Store) (documentId sessionId : JStr) : Store :=
  { documents := st.documents.filter
      (fun c => !(c.metadata.documentId == documentId &&
        c.metadata.sessionId == sessionId)),
    metadata := deleteOneBy
      (fun m => m.documentId == documentId && m.sessionId == sessionId)
      st.metadata }

/-- `MongoDocumentProcessor.cleanupSession`: `deleteMany` of all chunks and
all metadata of the session. -/
def cleanupSession (st : Store) (sessionId : JStr) : Store :=
  { documents := st.documents.filter (fun c => !(c.metadata.sessionId == sessionId)),
    metadata := st.metadata.filter (fun m => !(m.sessionId == sessionId)) }

/-! ## The embedding provider and the environment. -/

/-- One entry of the provider response's `data` array; `embedding = none`
models a missing or non-array `embedding` field. -/
structure EmbItem where
  embedding : Option (List ℚ)

/-- Everything the embedding provider can do in response to
`POST {base}/embeddings`:  `fetchError` covers network errors, timeouts and
bodies that fail to parse; `errorStatus` is a non-2xx response (`response.ok`
false) with its error text; `okResponse` is a 2xx response whose parsed
`data` field is `none` when missing/non-array/empty handling applies. -/
inductive ProviderOutcome where
  | fetchError : ProviderOutcome
  | errorStatus (status : Nat) (errorText : JStr) : ProviderOutcome
  | okResponse (data : Option (List EmbItem)) : ProviderOutcome

/-- Storage fault injection for the two insert operations of
`processDocument`: MongoDB's ordered `insertMany` persists a prefix of the
batch before failing (`failInsertChunks written`); `failInsertMetadata` makes
`insertOne` fail without writing. -/
inductive StorageFault where
  | fNone : StorageFault
  | failInsertChunks (written : Nat) : StorageFault
  | failInsertMetadata : StorageFault

/-- The ambient environment of one pipeline run: the `DISABLE_EMBEDDINGS`
flag, the provider's behaviour (a function of the request text), and the
storage fault injection. -/
structure Env where
  disableEmbeddings : Bool
  provider : JStr → ProviderOutcome
  fault : StorageFault

/-- The 8000-character truncation applied before calling the provider. -/
def jsTruncate (text : JStr) : JStr :=
  if 8000 < text.length then text.take 8000 else text

/-- `MongoDocumentProcessor.createEmbedding`: total — every failure inside
the `try` (validation, fetch, non-ok status, malformed body) is caught and
falls back to `createTextBasedEmbedding` of the text as last assigned
(truncated only if the truncation was reached before the throw).  The final
`catch` around the fallback is dead code because the synthetic embedding
cannot throw. -/
def createEmbedding (env : Env) (text : JStr) : List ℚ :=
  if env.disableEmbeddings then createTextBasedEmbedding text
  else if text = [] ∨ (jsTrim text).length = 0 then
    createTextBasedEmbedding text
  else
    let t := jsTruncate text
    match env.provider t with
    | .fetchError => createTextBasedEmbedding t
    | .errorStatus _ _ => createTextBasedEmbedding t
    | .okResponse none => createTextBasedEmbedding t
    | .okResponse (some []) => createTextBasedEmbedding t
    | .okResponse (some (item :: _)) =>
      match item.embedding with
      | none => createTextBasedEmbedding t
      | some [] => createTextBasedEmbedding t
      | some (x :: xs) => x :: xs

/-- `${documentId}-${i}`. -/
def chunkId (documentId : JStr) (i : Nat) : JStr :=
  documentId ++ "-".toList ++ (Nat.repr i).toList

/-- `MongoDocumentProcessor.generateEmbeddings`: embed the chunks (in order;
with `DISABLE_EMBEDDINGS` the loop uses `createTextBasedEmbedding` directly,
otherwise `createEmbedding` — which returns the same synthetic vector when
the flag is set) and tag each with its metadata. -/
def generateEmbeddings (env : Env) (chunks : List JStr)
    (documentId source sessionId : JStr) : List DocumentChunk :=
  chunks.enum.map (fun p =>
    { id := chunkId documentId p.1
      text := p.2
      embedding :=
        if env.disableEmbeddings then createTextBasedEmbedding p.2
        else createEmbedding env p.2
      metadata :=
        { documentId := documentId, chunkIndex := p.1, source := source
          sessionId := sessionId } })

/-- The `try` block of `MongoDocumentProcessor.processDocument`
(`ensureModelLoaded` swallows all its errors and is a no-op to the store, so
it is omitted).  A thrown error carries the store state at the moment of the
throw (inserts may already have happened). -/
def processDocumentTry (env : Env) (st : Store)
    (documentId text source sessionId : JStr) (now : Nat) :
    Except (String × Store) Store :=
  if documentId = [] then .error ("Invalid document ID provided", st)
  else if text = [] then .error ("Invalid text content provided", st)
  else if source = [] then .error ("Invalid source provided", st)
  else if (jsTrim text).length = 0 then .error ("Text content is empty", st)
  else if 1000000 < text.length then
    .error ("Text content is too large. Maximum size is 1MB.", st)
  else
    let cleanedText := preprocessText text
    if cleanedText.length = 0 then
      .error ("Text preprocessing resulted in empty content", st)
    else
      let chunks := splitIntoChunks cleanedText
      if chunks.length = 0 then .error ("Failed to split text into chunks", st)
      else
        let chunksWithEmbeddings :=
          generateEmbeddings env chunks documentId source sessionId
        if chunksWithEmbeddings.length = 0 then
          .error ("Failed to generate embeddings for document chunks", st)
        else
          match env.fault with
          | .failInsertChunks written =>
            .error ("StorageUnavailable: insertMany failed",
              insertChunks st (chunksWithEmbeddings.take written))
          | .failInsertMetadata =>
            .error ("StorageUnavailable: insertOne failed",
              insertChunks st chunksWithEmbeddings)
          | .fNone =>
            .ok (insertMetadata (insertChunks st chunksWithEmbeddings)
              { documentId := documentId, sessionId := sessionId,
                source := source, processedAt := now,
                chunkCount := chunksWithEmbeddings.length })

/-- `MongoDocumentProcessor.processDocument`: the `try` block above; on any
error the `catch` runs `cleanupDocument` for the pair (best-effort — in this
model deletes always succeed) and re-raises the original error. -/
def processDocument (env : Env) (st : Store)
    (documentId text source : JStr) (sessionId : JStr := "default".toList)
    (now : Nat := 0) : Except String Unit × Store :=
  match processDocumentTry env st documentId text source sessionId now with
  | .ok st' => (.ok (), st')
  | .error (msg, stErr) => (.error msg, cleanupDocument stErr documentId sessionId)

/-- `"\n\n"` as a character list. -/
def nnSep : JStr := '\n' :: ['\n']

/-- `MongoDocumentProcessor.retrieveContext`. -/
def retrieveContext (env : Env) (st : Store) (documentId query : JStr)
    (topK : Nat := 5) (sessionId : JStr := "default".toList) :
    Except String JStr :=
  if documentId = [] then .error "Invalid document ID provided"
  else if query = [] then .error "Invalid query provided"
  else if (jsTrim query).length = 0 then .error "Query cannot be empty"
  else if topK < 1 ∨ 20 < topK then .error "topK must be between 1 and 20"
  else
    match findMetadataOne st documentId sessionId with
    | none => .error "Document not found or not processed"
    | some _ =>
      let documentChunks := findChunks st documentId sessionId
      if documentChunks.length = 0 then
        .error "Document not found or not processed"
      else
        let queryEmbedding? : Except String (List ℚ) :=
          if env.disableEmbeddings then .ok (createTextBasedEmbedding query)
          else
            let e := createEmbedding env query
            if e.length = 0 then .error "Failed to generate query embedding"
            else .ok e
        match queryEmbedding? with
        | .error msg => .error msg
        | .ok queryEmbedding =>
          let similarities := scoreChunks queryEmbedding documentChunks
          let topChunks := rankCandidates similarities topK
          if topChunks.length = 0 then
            .error "No relevant chunks found for the query"
          else
            let context := List.intercalate nnSep (topChunks.map (·.text))
            if context = [] ∨ (jsTrim context).length = 0 then
              .error "No meaningful context could be extracted"
            else .ok context

/-! ## Session extraction (`src/lib/session.ts`, `getSessionIdFromRequest`). -/

/-- `request.headers.get(name)`: `none` when the header is absent (request
header names are normalised, so exact-name lookup suffices). -/
def headersGet (headers : List (JStr × JStr)) (name : JStr) : Option JStr :=
  (headers.find? (fun p => p.1 == name)).map Prod.snd

/-- The header consulted by `getSessionIdFromRequest`. -/
def xSessionId : JStr := "x-session-id".toList

/-- `getSessionIdFromRequest`: the `x-session-id` header if present and
truthy (a present-but-empty header value is falsy in JavaScript), otherwise
the fallback session `"default"`. -/
def getSessionIdFromRequest (headers : List (JStr × JStr)) : JStr :=
  match headersGet headers xSessionId with
  | some v => if v = [] then "default".toList else v
  | none => "default".toList

theorem mem_findChunks (st : Store) (d s : JStr) (c : DocumentChunk)
    (hc : c ∈ findChunks st d s) :
    c.metadata.documentId = d ∧ c.metadata.sessionId = s := by
  have h := (List.mem_filter.mp hc).2
  rw [Bool.and_eq_true, beq_iff_eq, beq_iff_eq] at h
  exact h

theorem mem_scoreChunks (qe : List ℚ) (chunks : List DocumentChunk)
    (c : DocumentChunk) (sc : Score)
    (h : (c, sc) ∈ scoreChunks qe chunks) : c ∈ chunks := by
  rcases List.mem_map.mp h with ⟨c', hc', heq⟩
  cases hmatch : cosineSimilarity qe c'.embedding with
  | ok sim => rw [hmatch] at heq; cases heq; exact hc'
  | error e => rw [hmatch] at heq; cases heq; exact hc'

theorem mem_rankCandidates (scored : List (DocumentChunk × Score)) (topK : Nat)
    (c : DocumentChunk) (hc : c ∈ rankCandidates scored topK) :
    ∃ sc, (c, sc) ∈ scored := by
  rcases List.mem_map.mp hc with ⟨⟨c', sc⟩, hmem, heq⟩
  cases heq
  exact ⟨sc, List.mem_mergeSort.mp (List.mem_of_mem_take hmem)⟩

/-- C1: the chunk lookup returns only chunks matching both the requested
documentId and the requested sessionId; consequently chunks ingested under a
session `A` are never returned for a different session `B`; and every
context string produced by `retrieveContext` is assembled exclusively from
chunks matching both requested keys. -/
theorem session_isolation :
    (∀ (st : Store) (d s : JStr), ∀ c ∈ findChunks st d s,
      c.metadata.documentId = d ∧ c.metadata.sessionId = s) ∧
    (∀ (st : Store) (dB A B : JStr) (c : DocumentChunk),
      c.metadata.sessionId = A → A ≠ B → c ∉ findChunks st dB B) ∧
    (∀ (env : Env) (st : Store) (d q : JStr) (k : Nat) (s ctx : JStr),
      retrieveContext env st d q k s = .ok ctx →
      ∃ sel : List DocumentChunk,
        (∀ c ∈ sel, c ∈ findChunks st d s) ∧
        ctx = List.intercalate nnSep (sel.map (fun c => c.text))) := by
  refine ⟨fun st d s c hc => mem_findChunks st d s c hc, ?_, ?_⟩
  · intro st dB A B c hA hAB hc
    exact hAB (hA ▸ (mem_findChunks st dB B c hc).2)
  · intro env st d q k s ctx h
    simp only [retrieveContext] at h
    split at h
    · exact absurd h (by simp)
    split at h
    · exact absurd h (by simp)
    split at h
    · exact absurd h (by simp)
    split at h
    · exact absurd h (by simp)
    split at h
    · exact absurd h (by simp)
    split at h
    · exact absurd h (by simp)
    split at h
    · exact absurd h (by simp)
    rename_i queryEmbedding heq
    split at h
    · exact absurd h (by simp)
    split at h
    · exact absurd h (by simp)
    refine ⟨rankCandidates (scoreChunks queryEmbedding (findChunks st d s)) k,
      ?_, ?_⟩
    · intro c hc
      rcases mem_rankCandidates _ k c hc with ⟨sc, hmem⟩
      exact mem_scoreChunks _ _ c sc hmem
    · rcases h with ⟨rfl⟩
      rfl

/-! ### Concrete fixtures used by the witnesses. -/

/-- A concrete stored chunk (session `"A"` of document `"d"`). -/
def cA : DocumentChunk :=
  { id := "d-0".toList, text := "hi".toList, embedding := [1],
    metadata := { documentId := "d".toList, chunkIndex := 0,
                  source := "src".toList, sessionId := "A".toList } }

/-- The matching metadata record for `cA`. -/
def mA : DocumentMetadata :=
  { documentId := "d".toList, sessionId := "A".toList, source := "src".toList,
    processedAt := 0, chunkCount := 1 }

/-- A store holding exactly the document of `cA`. -/
def stA : Store := { documents := [cA], metadata := [mA] }

/-- Environment: synthetic embeddings, no storage faults. -/
def envA : Env := ⟨true, fun _ => ProviderOutcome.fetchError, StorageFault.fNone⟩

/-- Environment: provider embeddings, provider returns the vector `[1]`. -/
def envB : Env :=
  ⟨false, fun _ => ProviderOutcome.okResponse (some [⟨some [1]⟩]),
    StorageFault.fNone⟩

unseal Rat.mul Rat.inv Rat.add in
/-- Witness for C1 at concrete inputs. -/
theorem session_isolation_witness :
    (cA.metadata.documentId = "d".toList ∧ cA.metadata.sessionId = "A".toList) ∧
    cA ∉ findChunks stA "d".toList "B".toList ∧
    (∃ sel : List DocumentChunk,
      (∀ c ∈ sel, c ∈ findChunks stA "d".toList "A".toList) ∧
      "hi".toList = List.intercalate nnSep (sel.map (fun c => c.text))) :=
  ⟨session_isolation.1 stA "d".toList "A".toList cA (by decide),
   session_isolation.2.1 stA "d".toList "A".toList "B".toList cA rfl (by decide),
   session_isolation.2.2 envB stA "d".toList "q".toList 5 "A".toList
     "hi".toList (by
       simp +decide [retrieveContext, findMetadataOne, findChunks, stA, cA, mA,
         envB, scoreChunks, rankCandidates, jsSortBySimilarity, createEmbedding,
         jsTruncate, jsTrim, cosineSimilarity, dotAcc,
         List.mergeSort_singleton, nnSep])⟩

theorem filter_deleteOneBy (p : α → Bool) :
    ∀ l : List α, (deleteOneBy p l).filter p = (l.filter p).drop 1 := by
  intro l
  induction l with
  | nil => rfl
  | cons x xs ih =>
    by_cases hx : p x
    · simp [deleteOneBy, hx]
    · simp [deleteOneBy, hx, ih]

theorem findChunks_cleanupDocument (st : Store) (d s : JStr) :
    findChunks (cleanupDocument st d s) d s = [] := by
  rw [findChunks, cleanupDocument, List.filter_filter, List.filter_eq_nil_iff]
  intro c _
  simp

theorem metaFor_cleanupDocument (st : Store) (d s : JStr) :
    metaFor (cleanupDocument st d s) d s = (metaFor st d s).drop 1 := by
  rw [metaFor, cleanupDocument, metaFor]
  exact filter_deleteOneBy _ st.metadata

theorem processDocumentTry_error_metadata (env : Env) (st : Store)
    (d text src s : JStr) (now : Nat) (e : String) (stErr : Store)
    (h : processDocumentTry env st d text src s now = .error (e, stErr)) :
    stErr.metadata = st.metadata := by
  simp only [processDocumentTry] at h
  split_ifs at h <;> try (cases h; rfl)
  split at h
  · cases h; rfl
  · cases h; rfl
  · cases h

/-- C2: whenever ingestion fails — at validation, preprocessing, chunking,
embedding, or storage (fault-injected) — the `catch` block's cleanup leaves
no chunks and no metadata record visible for the (documentId, sessionId)
pair (assuming at most one metadata record pre-existed for the pair, since
`cleanupDocument` uses `deleteOne`); in particular ingesting the empty
string fails (`InvalidInput`, caught at validation) and persists nothing. -/
theorem ingestion_all_or_nothing :
    (∀ (env : Env) (st : Store) (d text src s : JStr) (now : Nat) (e : String),
      (metaFor st d s).length ≤ 1 →
      (processDocument env st d text src s now).1 = .error e →
      findChunks (processDocument env st d text src s now).2 d s = [] ∧
      metaFor (processDocument env st d text src s now).2 d s = []) ∧
    (∀ (env : Env) (st : Store) (d src s : JStr) (now : Nat),
      d ≠ [] → (metaFor st d s).length ≤ 1 →
      (processDocument env st d [] src s now).1 =
        .error "Invalid text content provided" ∧
      findChunks (processDocument env st d [] src s now).2 d s = [] ∧
      metaFor (processDocument env st d [] src s now).2 d s = []) := by
  have key : ∀ (env : Env) (st : Store) (d text src s : JStr) (now : Nat)
      (e : String),
      (metaFor st d s).length ≤ 1 →
      (processDocument env st d text src s now).1 = .error e →
      findChunks (processDocument env st d text src s now).2 d s = [] ∧
      metaFor (processDocument env st d text src s now).2 d s = [] := by
    intro env st d text src s now e hmeta herr
    rw [processDocument] at herr ⊢
    cases htry : processDocumentTry env st d text src s now with
    | ok st' => rw [htry] at herr; exact absurd herr (by simp)
    | error pr =>
      rcases pr with ⟨msg, stErr⟩
      refine ⟨findChunks_cleanupDocument stErr d s, ?_⟩
      rw [metaFor_cleanupDocument stErr d s]
      have hmd := processDocumentTry_error_metadata env st d text src s now
        msg stErr htry
      have : metaFor stErr d s = metaFor st d s := by
        rw [metaFor, metaFor, hmd]
      rw [this]
      exact List.drop_eq_nil_of_le hmeta
  refine ⟨key, ?_⟩
  intro env st d src s now hd hmeta
  have herr : (processDocument env st d [] src s now).1 =
      .error "Invalid text content provided" := by
    rw [processDocument, processDocumentTry, if_neg hd, if_pos rfl]
  exact ⟨herr, key env st d [] src s now _ hmeta herr⟩

/-- Witness for C2 at concrete inputs. -/
theorem ingestion_all_or_nothing_witness :
    (processDocument envA stA "d".toList [] "src".toList "A".toList 0).1 =
      .error "Invalid text content provided" ∧
    findChunks (processDocument envA stA "d".toList [] "src".toList
      "A".toList 0).2 "d".toList "A".toList = [] ∧
    metaFor (processDocument envA stA "d".toList [] "src".toList
      "A".toList 0).2 "d".toList "A".toList = [] :=
  ingestion_all_or_nothing.2 envA stA "d".toList "src".toList "A".toList 0
    (by decide) (by decide)

/-- Provider behaviours that count as failures: network error/timeout, any
non-ok HTTP status (401/404/429/5xx or other), and a malformed or missing
`data[0].embedding`. -/
def providerFails : ProviderOutcome → Bool
  | .fetchError => true
  | .errorStatus _ _ => true
  | .okResponse none => true
  | .okResponse (some []) => true
  | .okResponse (some (item :: _)) =>
    match item.embedding with
    | none => true
    | some [] => true
    | some (_ :: _) => false

/-- C6: with embeddings enabled and a valid input text, every provider
failure is caught inside `createEmbedding`, which returns the synthetic
word-frequency embedding of the (possibly 8000-character-truncated) text
instead of raising (`createEmbedding` is total by construction: no error
escapes it). -/
theorem embedding_failure_fallback (env : Env) (text : JStr)
    (hdis : env.disableEmbeddings = false) (hne : text ≠ [])
    (htrim : (jsTrim text).length ≠ 0)
    (hfail : providerFails (env.provider (jsTruncate text)) = true) :
    createEmbedding env text = createTextBasedEmbedding (jsTruncate text) := by
  rw [createEmbedding, if_neg (by simp [hdis]), if_neg (by simp [hne, htrim])]
  cases hp : env.provider (jsTruncate text) with
  | fetchError => simp only [hp]
  | errorStatus status errorText => simp only [hp]
  | okResponse data =>
    match data with
    | none => simp only [hp]
    | some [] => simp only [hp]
    | some (item :: rest) =>
      match hitem : item.embedding with
      | none => simp only [hp, hitem]
      | some [] => simp only [hp, hitem]
      | some (x :: xs) =>
        rw [hp] at hfail
        simp [providerFails, hitem] at hfail

/-- Witness for C6 at a concrete input. -/
theorem embedding_failure_fallback_witness :
    createEmbedding ⟨false, fun _ => ProviderOutcome.errorStatus 500 [],
        StorageFault.fNone⟩ "q".toList =
      createTextBasedEmbedding (jsTruncate "q".toList) :=
  embedding_failure_fallback
    ⟨false, fun _ => ProviderOutcome.errorStatus 500 [], StorageFault.fNone⟩
    "q".toList rfl (by decide) (by decide) (by decide)

/-- A stored chunk with a zero embedding vector. -/
def cZ : DocumentChunk :=
  { id := "z-0".toList, text := "z".toList, embedding := [0],
    metadata := { documentId := "z".toList, chunkIndex := 0,
                  source := "src".toList, sessionId := "A".toList } }

unseal Rat.add Rat.mul in
/-- C7, counterexample: scoring a zero stored vector against the query `[1]`
does not raise (JavaScript division returns `NaN`), so the `catch` never
fires and the candidate's score is `NaN`, not the claimed deterministic
fallback `0`. -/
theorem similarity_zero_vector_counterexample :
    scoreChunks [1] [cZ] = [(cZ, Score.nan)] ∧
    Score.nan ≠ Score.srt 0 1 one_pos :=
  ⟨by decide, fun h => Score.noConfusion h⟩

/-- C7, amended: the scoring map retains every candidate in order (one bad
record never aborts the ranking); a candidate whose similarity computation
raises — unequal vector lengths — is scored `0` by the `catch`; but a
candidate whose norm product is zero (e.g. a zero stored vector) is scored
`NaN` by the division, not `0`. -/
theorem similarity_fallback (q : List ℚ) (chunks : List DocumentChunk) :
    ((scoreChunks q chunks).map Prod.fst = chunks) ∧
    (∀ i : Fin chunks.length,
      q.length ≠ chunks[i.1].embedding.length →
      (scoreChunks q chunks)[i.1]? =
        some (chunks[i.1], Score.srt 0 1 one_pos)) ∧
    (∀ i : Fin chunks.length,
      q.length = chunks[i.1].embedding.length →
      dotAcc q q * dotAcc chunks[i.1].embedding chunks[i.1].embedding = 0 →
      (scoreChunks q chunks)[i.1]? = some (chunks[i.1], Score.nan)) := by
  refine ⟨?_, ?_, ?_⟩
  · rw [scoreChunks, List.map_map]
    have hf : (Prod.fst ∘ fun (chunk : DocumentChunk) =>
        match cosineSimilarity q chunk.embedding with
        | .ok similarity => (chunk, similarity)
        | .error _ => (chunk, Score.srt 0 1 one_pos)) = id := by
      funext c
      cases h : cosineSimilarity q c.embedding <;> simp [h]
    rw [hf, List.map_id]
  · intro i hne
    rw [scoreChunks, List.getElem?_map, List.getElem?_eq_getElem i.2,
      Option.map_some']
    rw [cosineSimilarity, if_pos hne]
  · intro i heq hz
    rw [scoreChunks, List.getElem?_map, List.getElem?_eq_getElem i.2,
      Option.map_some']
    rw [cosineSimilarity, if_neg (by simp [heq]), dif_pos hz]

unseal Rat.add Rat.mul in
/-- Witness for C7 (amended) at concrete inputs: a length-mismatched
candidate is scored `0`; a zero-vector candidate is scored `NaN`. -/
theorem similarity_fallback_witness :
    (scoreChunks [1, 2] [cA])[0]? = some (cA, Score.srt 0 1 one_pos) ∧
    (scoreChunks [1] [cZ])[0]? = some (cZ, Score.nan) :=
  ⟨(similarity_fallback [1, 2] [cA]).2.1 ⟨0, by decide⟩ (by decide),
   (similarity_fallback [1] [cZ]).2.2 ⟨0, by decide⟩ (by decide) (by decide)⟩

/-- C8: on `NaN`-free scores the ranked list is sorted descending by the real
cosine-similarity value, is a permutation of the candidates, keeps the
original insertion order among equal scores (stable sort), and the selection
takes the `topK` highest-scoring candidates (every selected candidate scores
at least every unselected one; `min topK n` are selected); `topK` outside
`[1, 20]` is rejected by `retrieveContext`, and `topK` defaults to `5`. -/
theorem ranking_order_and_selection :
    (∀ scored : List (DocumentChunk × Score),
      (∀ x ∈ scored, x.2 ≠ Score.nan) →
      (jsSortBySimilarity scored).Pairwise
        (fun x y => scoreVal y.2 ≤ scoreVal x.2) ∧
      List.Perm (jsSortBySimilarity scored) scored ∧
      (∀ s : Score,
        (jsSortBySimilarity scored).filter (fun x => scoreEqB x.2 s) =
          scored.filter (fun x => scoreEqB x.2 s)) ∧
      (∀ topK : Nat, ∀ x ∈ (jsSortBySimilarity scored).take topK,
        ∀ y ∈ (jsSortBySimilarity scored).drop topK,
        scoreVal y.2 ≤ scoreVal x.2) ∧
      (∀ topK : Nat, rankCandidates scored topK =
        ((jsSortBySimilarity scored).take topK).map Prod.fst ∧
        ((jsSortBySimilarity scored).take topK).length =
          min topK scored.length)) ∧
    (∀ (d1 p1 : ℚ) (h1 : 0 < p1) (d2 p2 : ℚ) (h2 : 0 < p2),
      scoreEqB (Score.srt d1 p1 h1) (Score.srt d2 p2 h2) = true ↔
        scoreVal (Score.srt d1 p1 h1) = scoreVal (Score.srt d2 p2 h2)) ∧
    (∀ (env : Env) (st : Store) (d q : JStr) (k : Nat) (s : JStr),
      (k < 1 ∨ 20 < k) → ∃ msg, retrieveContext env st d q k s = .error msg) ∧
    (∀ (env : Env) (st : Store) (d q : JStr),
      retrieveContext env st d q = retrieveContext env st d q 5) := by
  refine ⟨?_, fun d1 p1 h1 d2 p2 h2 => scoreEqB_iff d1 p1 h1 d2 p2 h2, ?_,
    fun env st d q => rfl⟩
  · intro scored hnan
    refine ⟨jsSortBySimilarity_sorted scored hnan,
      jsSortBySimilarity_perm scored,
      jsSortBySimilarity_stable scored hnan, ?_, ?_⟩
    · intro topK x hx y hy
      have hp := jsSortBySimilarity_sorted scored hnan
      rw [← List.take_append_drop topK (jsSortBySimilarity scored),
        List.pairwise_append] at hp
      exact hp.2.2 x hx y hy
    · intro topK
      refine ⟨rfl, ?_⟩
      rw [List.length_take, jsSortBySimilarity, List.length_mergeSort]
  · intro env st d q k s hk
    by_cases h1 : d = []
    · exact ⟨_, by rw [retrieveContext, if_pos h1]⟩
    by_cases h2 : q = []
    · exact ⟨_, by rw [retrieveContext, if_neg h1, if_pos h2]⟩
    by_cases h3 : (jsTrim q).length = 0
    · exact ⟨_, by rw [retrieveContext, if_neg h1, if_neg h2, if_pos h3]⟩
    · exact ⟨_, by rw [retrieveContext, if_neg h1, if_neg h2, if_neg h3,
        if_pos hk]⟩

/-- Witness for C8 at concrete inputs. -/
theorem ranking_order_and_selection_witness :
    ((jsSortBySimilarity [(cA, Score.srt 1 1 one_pos)]).Pairwise
        (fun x y => scoreVal y.2 ≤ scoreVal x.2) ∧
      List.Perm (jsSortBySimilarity [(cA, Score.srt 1 1 one_pos)])
        [(cA, Score.srt 1 1 one_pos)] ∧
      (∀ s : Score,
        (jsSortBySimilarity [(cA, Score.srt 1 1 one_pos)]).filter
            (fun x => scoreEqB x.2 s) =
          [(cA, Score.srt 1 1 one_pos)].filter (fun x => scoreEqB x.2 s)) ∧
      (∀ topK : Nat,
        ∀ x ∈ (jsSortBySimilarity [(cA, Score.srt 1 1 one_pos)]).take topK,
        ∀ y ∈ (jsSortBySimilarity [(cA, Score.srt 1 1 one_pos)]).drop topK,
        scoreVal y.2 ≤ scoreVal x.2) ∧
      (∀ topK : Nat,
        rankCandidates [(cA, Score.srt 1 1 one_pos)] topK =
          ((jsSortBySimilarity [(cA, Score.srt 1 1 one_pos)]).take topK).map
            Prod.fst ∧
        ((jsSortBySimilarity [(cA, Score.srt 1 1 one_pos)]).take topK).length =
          min topK [(cA, Score.srt 1 1 one_pos)].length)) ∧
    (scoreEqB (Score.srt 1 1 one_pos) (Score.srt 1 1 one_pos) = true ↔
      scoreVal (Score.srt 1 1 one_pos) = scoreVal (Score.srt 1 1 one_pos)) ∧
    (∃ msg, retrieveContext envA stA "d".toList "q".toList 0 "A".toList =
      .error msg) :=
  ⟨ranking_order_and_selection.1 [(cA, Score.srt 1 1 one_pos)] (by decide),
   ranking_order_and_selection.2.1 1 1 one_pos 1 1 one_pos,
   ranking_order_and_selection.2.2.1 envA stA "d".toList "q".toList 0
     "A".toList (by decide)⟩

/-! ### Store lemmas for the metadata invariant (C9). -/

theorem findChunks_cleanupDocument_ne (st : Store) (d s d₂ s₂ : JStr)
    (hne : ¬(d₂ = d ∧ s₂ = s)) :
    findChunks (cleanupDocument st d s) d₂ s₂ = findChunks st d₂ s₂ := by
  rw [findChunks, cleanupDocument, findChunks, List.filter_filter]
  refine List.filter_congr ?_
  intro c _
  by_cases hq : (c.metadata.documentId == d₂ && c.metadata.sessionId == s₂) = true
  · have hp : (c.metadata.documentId == d && c.metadata.sessionId == s) = false := by
      have hq2 := hq
      rw [Bool.and_eq_true] at hq2
      rcases hq2 with ⟨h1, h2⟩
      rw [beq_iff_eq] at h1 h2
      rw [Bool.and_eq_false_iff]
      by_cases hd : c.metadata.documentId = d
      · refine Or.inr ?_
        rw [beq_eq_false_iff_ne]
        intro hs
        exact hne ⟨h1.symm.trans hd, h2.symm.trans hs⟩
      · exact Or.inl (beq_eq_false_iff_ne.mpr hd)
    rw [hq, hp]
    rfl
  · rw [Bool.not_eq_true] at hq
    rw [hq]
    rfl

theorem filter_deleteOneBy_of_disjoint (p q : α → Bool)
    (h : ∀ x, q x = true → p x = false) :
    ∀ l : List α, (deleteOneBy p l).filter q = l.filter q := by
  intro l
  induction l with
  | nil => rfl
  | cons x xs ih =>
    rw [deleteOneBy]
    by_cases hx : p x = true
    · rw [if_pos hx, List.filter_cons]
      have : q x = false := by
        by_cases hqx : q x = true
        · rw [h x hqx] at hx; exact absurd hx (by simp)
        · exact Bool.not_eq_true _ |>.mp hqx
      rw [this]
      simp
    · rw [if_neg hx, List.filter_cons, List.filter_cons, ih]

theorem metaFor_cleanupDocument_ne (st : Store) (d s d₂ s₂ : JStr)
    (hne : ¬(d₂ = d ∧ s₂ = s)) :
    metaFor (cleanupDocument st d s) d₂ s₂ = metaFor st d₂ s₂ := by
  rw [metaFor, cleanupDocument, metaFor]
  refine filter_deleteOneBy_of_disjoint _ _ ?_ st.metadata
  intro m hq
  have hq2 := hq
  rw [Bool.and_eq_true] at hq2
  rcases hq2 with ⟨h1, h2⟩
  rw [beq_iff_eq] at h1 h2
  rw [Bool.and_eq_false_iff]
  by_cases hd : m.documentId = d
  · refine Or.inr ?_
    rw [beq_eq_false_iff_ne]
    intro hs
    exact hne ⟨h1.symm.trans hd, h2.symm.trans hs⟩
  · exact Or.inl (beq_eq_false_iff_ne.mpr hd)

theorem findChunks_cleanupSession_self (st : Store) (s d₂ : JStr) :
    findChunks (cleanupSession st s) d₂ s = [] := by
  rw [findChunks, cleanupSession, List.filter_filter, List.filter_eq_nil_iff]
  intro c _
  by_cases hs : (c.metadata.sessionId == s) = true
  · simp [hs]
  · rw [Bool.not_eq_true] at hs
    simp [hs]

theorem findChunks_cleanupSession_ne (st : Store) (s d₂ s₂ : JStr)
    (hne : s₂ ≠ s) :
    findChunks (cleanupSession st s) d₂ s₂ = findChunks st d₂ s₂ := by
  rw [findChunks, cleanupSession, findChunks, List.filter_filter]
  refine List.filter_congr ?_
  intro c _
  by_cases hq : (c.metadata.documentId == d₂ && c.metadata.sessionId == s₂) = true
  · have : (c.metadata.sessionId == s) = false := by
      have hq2 := hq
      rw [Bool.and_eq_true] at hq2
      rcases hq2 with ⟨_, h2⟩
      rw [beq_iff_eq] at h2
      rw [beq_eq_false_iff_ne]
      exact fun hcs => hne (h2.symm.trans hcs)
    rw [hq, this]
    rfl
  · rw [Bool.not_eq_true] at hq
    rw [hq]
    rfl

theorem metaFor_cleanupSession_self (st : Store) (s d₂ : JStr) :
    metaFor (cleanupSession st s) d₂ s = [] := by
  rw [metaFor, cleanupSession, List.filter_filter, List.filter_eq_nil_iff]
  intro m _
  by_cases hs : (m.sessionId == s) = true
  · simp [hs]
  · rw [Bool.not_eq_true] at hs
    simp [hs]

theorem metaFor_cleanupSession_ne (st : Store) (s d₂ s₂ : JStr) (hne : s₂ ≠ s) :
    metaFor (cleanupSession st s) d₂ s₂ = metaFor st d₂ s₂ := by
  rw [metaFor, cleanupSession, metaFor, List.filter_filter]
  refine List.filter_congr ?_
  intro m _
  by_cases hq : (m.documentId == d₂ && m.sessionId == s₂) = true
  · have : (m.sessionId == s) = false := by
      have hq2 := hq
      rw [Bool.and_eq_true] at hq2
      rcases hq2 with ⟨_, h2⟩
      rw [beq_iff_eq] at h2
      rw [beq_eq_false_iff_ne]
      exact fun hcs => hne (h2.symm.trans hcs)
    rw [hq, this]
    rfl
  · rw [Bool.not_eq_true] at hq
    rw [hq]
    rfl

theorem metaFor_insertChunks (st : Store) (cs : List DocumentChunk)
    (d s : JStr) : metaFor (insertChunks st cs) d s = metaFor st d s := rfl

theorem findChunks_insertMetadata (st : Store) (m : DocumentMetadata)
    (d s : JStr) : findChunks (insertMetadata st m) d s = findChunks st d s :=
  rfl

theorem findChunks_insertChunks (st : Store) (cs : List DocumentChunk)
    (d s : JStr) :
    findChunks (insertChunks st cs) d s =
      findChunks st d s ++ cs.filter
        (fun c => c.metadata.documentId == d && c.metadata.sessionId == s) := by
  simp only [findChunks, insertChunks, List.filter_append]

theorem metaFor_insertMetadata (st : Store) (m : DocumentMetadata)
    (d s : JStr) :
    metaFor (insertMetadata st m) d s =
      metaFor st d s ++ [m].filter
        (fun m => m.documentId == d && m.sessionId == s) := by
  simp only [metaFor, insertMetadata, List.filter_append]

theorem generateEmbeddings_meta (env : Env) (chunks : List JStr)
    (d src sess : JStr) :
    ∀ c ∈ generateEmbeddings env chunks d src sess,
      c.metadata.documentId = d ∧ c.metadata.sessionId = sess := by
  intro c hc
  rcases List.mem_map.mp hc with ⟨p, _, rfl⟩
  exact ⟨rfl, rfl⟩

/-- Shape of a successful `processDocumentTry`: the store is extended by the
embedded chunks of the pair and exactly one metadata record whose
`chunkCount` is the number of those chunks. -/
theorem processDocumentTry_ok_shape (env : Env) (st : Store)
    (d text src s : JStr) (now : Nat) (st' : Store)
    (h : processDocumentTry env st d text src s now = .ok st') :
    ∃ cwe : List DocumentChunk,
      (∀ c ∈ cwe, c.metadata.documentId = d ∧ c.metadata.sessionId = s) ∧
      st' = insertMetadata (insertChunks st cwe)
        { documentId := d, sessionId := s, source := src, processedAt := now,
          chunkCount := cwe.length } := by
  simp only [processDocumentTry] at h
  split_ifs at h
  split at h
  · cases h
  · cases h
  · cases h
    exact ⟨_, generateEmbeddings_meta env _ d src s, rfl⟩

/-- Shape of a failing `processDocumentTry`: the metadata collection is
untouched and the documents collection is extended only by chunks of the
pair (possibly none). -/
theorem processDocumentTry_error_shape (env : Env) (st : Store)
    (d text src s : JStr) (now : Nat) (e : String) (stErr : Store)
    (h : processDocumentTry env st d text src s now = .error (e, stErr)) :
    stErr.metadata = st.metadata ∧
    ∃ extra : List DocumentChunk,
      (∀ c ∈ extra, c.metadata.documentId = d ∧ c.metadata.sessionId = s) ∧
      stErr.documents = st.documents ++ extra := by
  simp only [processDocumentTry] at h
  split_ifs at h <;>
    try (cases h; exact ⟨rfl, [], by simp, by simp [insertChunks]⟩)
  split at h
  · cases h
    refine ⟨rfl, _, ?_, rfl⟩
    intro c hc
    exact generateEmbeddings_meta env _ d src s c (List.mem_of_mem_take hc)
  · cases h
    exact ⟨rfl, _, generateEmbeddings_meta env _ d src s, rfl⟩
  · cases h

/-- The metadata invariant of claim C9: each (documentId, sessionId) pair
either is absent (no metadata, no chunks) or has exactly one metadata record
whose `chunkCount` equals the number of stored chunks of the pair. -/
def StoreInv (st : Store) : Prop :=
  ∀ d s : JStr,
    (metaFor st d s = [] ∧ findChunks st d s = []) ∨
    (∃ m, metaFor st d s = [m] ∧ m.chunkCount = (findChunks st d s).length)

theorem StoreInv_empty : StoreInv Store.empty := fun _ _ => Or.inl ⟨rfl, rfl⟩

theorem StoreInv_cleanupDocument (st : Store) (d s : JStr) (h : StoreInv st) :
    StoreInv (cleanupDocument st d s) := by
  intro d₂ s₂
  by_cases hpair : d₂ = d ∧ s₂ = s
  · rcases hpair with ⟨rfl, rfl⟩
    left
    refine ⟨?_, findChunks_cleanupDocument st d₂ s₂⟩
    rw [metaFor_cleanupDocument]
    rcases h d₂ s₂ with ⟨hm, _⟩ | ⟨m, hm, _⟩ <;> rw [hm] <;> rfl
  · rw [metaFor_cleanupDocument_ne st d s d₂ s₂ hpair,
      findChunks_cleanupDocument_ne st d s d₂ s₂ hpair]
    exact h d₂ s₂

theorem StoreInv_cleanupSession (st : Store) (s : JStr) (h : StoreInv st) :
    StoreInv (cleanupSession st s) := by
  intro d₂ s₂
  by_cases hs : s₂ = s
  · subst hs
    exact Or.inl ⟨metaFor_cleanupSession_self st s₂ d₂,
      findChunks_cleanupSession_self st s₂ d₂⟩
  · rw [metaFor_cleanupSession_ne st s d₂ s₂ hs,
      findChunks_cleanupSession_ne st s d₂ s₂ hs]
    exact h d₂ s₂

theorem metaFor_stErr (st stErr : Store) (hmd : stErr.metadata = st.metadata)
    (d₂ s₂ : JStr) : metaFor stErr d₂ s₂ = metaFor st d₂ s₂ := by
  rw [metaFor, metaFor, hmd]

theorem StoreInv_processDocument (env : Env) (st : Store)
    (d text src s : JStr) (now : Nat) (hInv : StoreInv st)
    (hfresh : metaFor st d s = []) :
    StoreInv (processDocument env st d text src s now).2 := by
  cases htry : processDocumentTry env st d text src s now with
  | ok st' =>
    rcases processDocumentTry_ok_shape env st d text src s now st' htry with
      ⟨cwe, hcwe, rfl⟩
    simp only [processDocument, htry]
    intro d₂ s₂
    by_cases hpair : d₂ = d ∧ s₂ = s
    · rcases hpair with ⟨rfl, rfl⟩
      right
      have hchunks : findChunks st d₂ s₂ = [] := by
        rcases hInv d₂ s₂ with ⟨_, hc⟩ | ⟨m, hm, _⟩
        · exact hc
        · rw [hfresh] at hm; cases hm
      refine ⟨⟨d₂, s₂, src, now, cwe.length⟩, ?_, ?_⟩
      · rw [metaFor_insertMetadata, metaFor_insertChunks, hfresh]
        simp
      · show cwe.length = _
        rw [findChunks_insertMetadata, findChunks_insertChunks, hchunks,
          List.nil_append, List.filter_eq_self.mpr ?_]
        intro c hc
        rcases hcwe c hc with ⟨h1, h2⟩
        simp [h1, h2]
    · have hm2 : metaFor (insertMetadata (insertChunks st cwe)
          ⟨d, s, src, now, cwe.length⟩) d₂ s₂ = metaFor st d₂ s₂ := by
        rw [metaFor_insertMetadata, metaFor_insertChunks, List.filter_cons]
        have hrec : ((⟨d, s, src, now, cwe.length⟩ :
            DocumentMetadata).documentId == d₂ &&
            (⟨d, s, src, now, cwe.length⟩ :
            DocumentMetadata).sessionId == s₂) = false := by
          show (d == d₂ && s == s₂) = false
          rw [Bool.and_eq_false_iff]
          by_cases hd : d = d₂
          · refine Or.inr (beq_eq_false_iff_ne.mpr ?_)
            exact fun hs => hpair ⟨hd.symm, hs.symm⟩
          · exact Or.inl (beq_eq_false_iff_ne.mpr hd)
        rw [hrec]
        simp
      have hc2 : findChunks (insertMetadata (insertChunks st cwe)
          ⟨d, s, src, now, cwe.length⟩) d₂ s₂ = findChunks st d₂ s₂ := by
        rw [findChunks_insertMetadata, findChunks_insertChunks,
          List.filter_eq_nil_iff.mpr ?_, List.append_nil]
        intro c hc
        rcases hcwe c hc with ⟨h1, h2⟩
        rw [Bool.and_eq_true, beq_iff_eq, beq_iff_eq, h1, h2]
        exact fun hcon => hpair ⟨hcon.1.symm, hcon.2.symm⟩
      rw [hm2, hc2]
      exact hInv d₂ s₂
  | error pr =>
    rcases pr with ⟨msg, stErr⟩
    rcases processDocumentTry_error_shape env st d text src s now msg stErr
      htry with ⟨hmd, extra, hextra, hdocs⟩
    simp only [processDocument, htry]
    intro d₂ s₂
    by_cases hpair : d₂ = d ∧ s₂ = s
    · rcases hpair with ⟨rfl, rfl⟩
      left
      refine ⟨?_, findChunks_cleanupDocument stErr d₂ s₂⟩
      rw [metaFor_cleanupDocument, metaFor_stErr st stErr hmd, hfresh]
      rfl
    · rw [metaFor_cleanupDocument_ne stErr d s d₂ s₂ hpair,
        findChunks_cleanupDocument_ne stErr d s d₂ s₂ hpair,
        metaFor_stErr st stErr hmd]
      have hext0 : extra.filter
          (fun c => c.metadata.documentId == d₂ && c.metadata.sessionId == s₂) =
          [] := by
        rw [List.filter_eq_nil_iff]
        intro c hc
        rcases hextra c hc with ⟨h1, h2⟩
        rw [Bool.and_eq_true, beq_iff_eq, beq_iff_eq, h1, h2]
        exact fun hcon => hpair ⟨hcon.1.symm, hcon.2.symm⟩
      have hc2 : findChunks stErr d₂ s₂ = findChunks st d₂ s₂ := by
        rw [findChunks, hdocs, List.filter_append, hext0, List.append_nil]
        rfl
      rw [hc2]
      exact hInv d₂ s₂

unseal Rat.mul Rat.inv Rat.add in
/-- C9, counterexample: ingesting the same (documentId, sessionId) pair twice
— both states reachable and the first satisfying the invariant — leaves TWO
metadata records for the pair, because `processDocument` never checks for an
existing document: the invariant is not preserved by ingest on reachable
states. -/
theorem metadata_invariant_counterexample :
    StoreInv (processDocument envA Store.empty "d".toList "hi".toList
      "src".toList "s".toList 0).2 ∧
    (metaFor (processDocument envA
        (processDocument envA Store.empty "d".toList "hi".toList "src".toList
          "s".toList 0).2
        "d".toList "hi".toList "src".toList "s".toList 1).2
      "d".toList "s".toList).length = 2 :=
  ⟨StoreInv_processDocument envA Store.empty "d".toList "hi".toList
      "src".toList "s".toList 0 StoreInv_empty rfl,
   by decide⟩

/-- C9, amended: the metadata invariant — at most one metadata record per
(documentId, sessionId) pair, its `chunkCount` equal to the pair's stored
chunk count, and no orphan chunks — holds of the empty store and is
preserved by `cleanupDocument`, `cleanupSession`, and by ingest
(`processDocument`, under any storage-fault injection) PROVIDED the ingested
pair is not currently live (the store contract assumes the caller guarantees
uniqueness; re-ingesting a live pair violates the invariant, see the
counterexample). -/
theorem metadata_invariant :
    StoreInv Store.empty ∧
    (∀ (env : Env) (st : Store) (d text src s : JStr) (now : Nat),
      StoreInv st → metaFor st d s = [] →
      StoreInv (processDocument env st d text src s now).2) ∧
    (∀ (st : Store) (d s : JStr), StoreInv st →
      StoreInv (cleanupDocument st d s)) ∧
    (∀ (st : Store) (s : JStr), StoreInv st → StoreInv (cleanupSession st s)) :=
  ⟨StoreInv_empty,
   fun env st d text src s now h1 h2 =>
     StoreInv_processDocument env st d text src s now h1 h2,
   fun st d s h => StoreInv_cleanupDocument st d s h,
   fun st s h => StoreInv_cleanupSession st s h⟩

/-- Witness for C9 (amended) at concrete inputs. -/
theorem metadata_invariant_witness :
    StoreInv (processDocument envA Store.empty "e".toList "hi".toList
      "src".toList "s".toList 0).2 :=
  metadata_invariant.2.1 envA Store.empty "e".toList "hi".toList "src".toList
    "s".toList 0 metadata_invariant.1 rfl

/-- C10: `getSessionIdFromRequest` returns the `x-session-id` header value
when present and non-empty, and `"default"` otherwise; hence every request
without the header (or with an empty one) lands in the single shared session
`"default"`. -/
theorem session_header_fallback :
    (∀ (headers : List (JStr × JStr)) (v : JStr),
      headersGet headers xSessionId = some v → v ≠ [] →
      getSessionIdFromRequest headers = v) ∧
    (∀ headers : List (JStr × JStr),
      headersGet headers xSessionId = none ∨
        headersGet headers xSessionId = some [] →
      getSessionIdFromRequest headers = "default".toList) ∧
    (∀ h1 h2 : List (JStr × JStr),
      headersGet h1 xSessionId = none → headersGet h2 xSessionId = none →
      getSessionIdFromRequest h1 = getSessionIdFromRequest h2) := by
  refine ⟨?_, ?_, ?_⟩
  · intro headers v hv hne
    simp only [getSessionIdFromRequest, hv, if_neg hne]
  · intro headers h
    rcases h with h | h
    · simp only [getSessionIdFromRequest, h]
    · simp [getSessionIdFromRequest, h]
  · intro h1 h2 ha hb
    simp only [getSessionIdFromRequest, ha, hb]

/-- Witness for C10 at concrete inputs. -/
theorem session_header_fallback_witness :
    getSessionIdFromRequest [(xSessionId, "abc".toList)] = "abc".toList ∧
    getSessionIdFromRequest [(xSessionId, [])] = "default".toList ∧
    getSessionIdFromRequest [("other".toList, "v".toList)] =
      getSessionIdFromRequest [] :=
  ⟨session_header_fallback.1 [(xSessionId, "abc".toList)] "abc".toList rfl
     (by decide),
   session_header_fallback.2.1 [(xSessionId, [])] (Or.inr rfl),
   session_header_fallback.2.2 [("other".toList, "v".toList)] [] rfl rfl⟩
